import Mathlib

set_option linter.unusedVariables false
set_option linter.unusedSectionVars false

/-!
# Verification of the session-scoped retrieval subsystem (`ollama_chat/rag.py`)

A shallow embedding of the RAG module: per-session persisted state consists of
an index file (ordered list of embedding vectors, written by the external FAISS
library) and a metadata file (ordered list of document records).  Floating
point coordinates and similarity scores are modelled by an arbitrary linearly
ordered commutative ring `K`; the external embedding model and the external
SHA-256 hexdigest are abstract function parameters, since the module only
composes them.  Fallible disk writes are modelled by an oracle saying which
writes succeed; a failing write raises (Python exception), modelled by
`Except`, and leaves the target file unchanged.
-/

namespace Rag

variable (K : Type) [LinearOrderedCommRing K]

/-- An embedding vector, one entry per dimension (`numpy` row). -/
abbrev Vec := List K

variable {K}

/-- Inner product of two vectors (FAISS `IndexFlatIP` similarity). -/
def dot (u v : Vec K) : K := (List.zipWith (· * ·) u v).sum

/-- A metadata entry as written by `add_documents`:
`{"id": _hash(doc), "text": doc}`. -/
structure DocRecord where
  id : String
  text : String
deriving DecidableEq, Repr

variable (K) in
/-- The per-session on-disk state: contents of `{sid}.index` and of
`{sid}.metadata.json`, `none` when the file does not exist. -/
structure RagState where
  indexFile : String → Option (List (Vec K))
  metaFile : String → Option (List DocRecord)

/-- The state before any call: no files exist. -/
def RagState.empty : RagState K := ⟨fun _ => none, fun _ => none⟩

/-- `_hash(text)`: first 12 characters of the SHA-256 hexdigest of the text.
The digest itself (`hashlib.sha256(text.encode()).hexdigest()`) is the
external `sha` parameter; the module truncates it to 12 characters. -/
def hashDoc (sha : String → String) (text : String) : String :=
  (sha text).take 12

/-- Which of the two disk writes of an `add_documents` call succeed. -/
structure Oracle where
  indexWriteOk : Bool
  metaWriteOk : Bool

/-- The errors a call can propagate: an I/O failure writing the index file or
the metadata file (Python exceptions from `faiss.write_index` /
`Path.write_text`). -/
inductive RagErr where
  | persistIndex
  | persistMeta
deriving DecidableEq, Repr

/-- Reading the index file (`faiss.read_index` guarded by `is_file`): a pure
read, the state is unchanged. -/
def readIndexOp (s : RagState K) (sid : String) : Option (List (Vec K)) × RagState K :=
  (s.indexFile sid, s)

/-- `_load_metadata`: parsed contents of the metadata file, `[]` when the file
does not exist.  A pure read, the state is unchanged. -/
def loadMetaOp (s : RagState K) (sid : String) : List DocRecord × RagState K :=
  ((s.metaFile sid).getD [], s)

/-- `faiss.write_index(index, path)`: replaces the session's index file.  On
failure the exception propagates and the file keeps its old contents. -/
def writeIndexOp (o : Oracle) (s : RagState K) (sid : String) (idx : List (Vec K)) :
    Except RagErr Unit × RagState K :=
  if o.indexWriteOk then
    (.ok (), ⟨fun x => if x = sid then some idx else s.indexFile x, s.metaFile⟩)
  else (.error .persistIndex, s)

/-- `_save_metadata`: replaces the session's metadata file.  On failure the
exception propagates and the file keeps its old contents. -/
def writeMetaOp (o : Oracle) (s : RagState K) (sid : String) (meta : List DocRecord) :
    Except RagErr Unit × RagState K :=
  if o.metaWriteOk then
    (.ok (), ⟨s.indexFile, fun x => if x = sid then some meta else s.metaFile x⟩)
  else (.error .persistMeta, s)

/-- `add_documents(session_id, docs)`: no-op on empty input; otherwise embeds
the docs, appends the embeddings to the session's index (creating it when the
index file is absent), persists the index, then appends one
`{"id": _hash(doc), "text": doc}` record per doc to the metadata list and
persists it.  `embed` is the external `EMBEDDER.encode` applied to one text
(deterministic per text, per the model's contract); a failing write aborts the
call at that statement, as the Python exception would. -/
def add_documents (embed : String → Vec K) (sha : String → String) (o : Oracle)
    (s : RagState K) (sid : String) (docs : List String) :
    Except RagErr Unit × RagState K :=
  if docs.isEmpty then (.ok (), s)
  else
    let embeddings := docs.map embed
    let (optIdx, s) := readIndexOp s sid
    let index := optIdx.getD []
    let index := index ++ embeddings
    match writeIndexOp o s sid index with
    | (.error e, s) => (.error e, s)
    | (.ok _, s) =>
      let (meta, s) := loadMetaOp s sid
      let meta := meta ++ docs.map (fun d => ⟨hashDoc sha d, d⟩)
      writeMetaOp o s sid meta

/-- Key order used to model `index.search` of FAISS `IndexFlatIP`: an entry
`(position, score)` precedes another when its score is strictly larger, or the
scores are equal and its position is smaller (descending similarity, ties by
insertion position). -/
def keyLE (a b : Nat × K) : Prop := b.2 < a.2 ∨ (a.2 = b.2 ∧ a.1 ≤ b.1)

instance : DecidableRel (keyLE (K := K)) := fun _ _ =>
  inferInstanceAs (Decidable (_ ∨ _))

instance : IsTotal (Nat × K) keyLE where
  total a b := by
    rcases lt_trichotomy a.2 b.2 with h | h | h
    · exact Or.inr (Or.inl h)
    · rcases Nat.le_total a.1 b.1 with h' | h'
      · exact Or.inl (Or.inr ⟨h, h'⟩)
      · exact Or.inr (Or.inr ⟨h.symm, h'⟩)
    · exact Or.inl (Or.inl h)

instance : IsTrans (Nat × K) keyLE where
  trans a b c hab hbc := by
    rcases hab with hab | ⟨hab, hab'⟩
    · rcases hbc with hbc | ⟨hbc, _⟩
      · exact Or.inl (lt_trans hbc hab)
      · exact Or.inl (hbc ▸ hab)
    · rcases hbc with hbc | ⟨hbc, hbc'⟩
      · exact Or.inl (hab ▸ hbc)
      · exact Or.inr ⟨hab.trans hbc, hab'.trans hbc'⟩

/-- The scored entries of an index against a query embedding: position paired
with inner-product similarity, in insertion order. -/
def scored (vs : List (Vec K)) (q : Vec K) : List (Nat × K) :=
  vs.enum.map fun p => (p.1, dot q p.2)

/-- The positions an `IndexFlatIP` search selects for `k` neighbours: the first
`k` entries in descending-similarity order (ties by insertion position). -/
def searchPositions (vs : List (Vec K)) (q : Vec K) (k : Nat) : List Nat :=
  ((List.insertionSort keyLE (scored vs q)).take k).map Prod.fst

/-- Models the external `index.search(q, k)` label row `I[0]` of FAISS
`IndexFlatIP`: exactly `k` labels, the top-`min k n` stored positions in
descending inner-product order, padded with `-1` when the index holds fewer
than `k` vectors. -/
def faissSearchLabels (vs : List (Vec K)) (q : Vec K) (k : Nat) : List Int :=
  let pos := searchPositions vs q k
  pos.map (Int.ofNat ·) ++ List.replicate (k - pos.length) (-1)

/-- `_search_index(session_id, query, k)`: returns `[]` when the index file
does not exist; otherwise reads the index, embeds the query, searches for `k`
neighbours, and maps each returned label to the text of the metadata record at
that position, skipping labels that are negative or out of range of the
metadata list. -/
def _search_index (embed : String → Vec K) (s : RagState K) (sid query : String)
    (k : Nat) : List String × RagState K :=
  let (optIdx, s) := readIndexOp s sid
  match optIdx with
  | none => ([], s)
  | some vs =>
    let labels := faissSearchLabels vs (embed query) k
    let (meta, s) := loadMetaOp s sid
    let results := labels.filterMap fun idx =>
      if idx < 0 ∨ (meta.length : Int) ≤ idx then none
      else some (meta.getD idx.toNat ⟨"", ""⟩).text
    (results, s)

/-- `retrieve(session_id, query)`: the `_search_index` results for `k = 4`,
joined with the fixed separator. -/
def retrieve (embed : String → Vec K) (s : RagState K) (sid query : String) :
    String × RagState K :=
  let (docs, s) := _search_index embed s sid query 4
  (String.intercalate "\n---\n" docs, s)

/-- Number of vectors in the session's persisted index (0 when absent). -/
def lenIndex (s : RagState K) (sid : String) : Nat :=
  ((s.indexFile sid).getD []).length

/-- Number of records in the session's persisted metadata (0 when absent). -/
def lenMeta (s : RagState K) (sid : String) : Nat :=
  ((s.metaFile sid).getD []).length

/-- The oracle of a run in which every disk write succeeds. -/
def okOracle : Oracle := ⟨true, true⟩

/-- One completed `add_documents` call (all writes succeed). -/
def step (embed : String → Vec K) (sha : String → String) (s : RagState K)
    (c : String × List String) : RagState K :=
  (add_documents embed sha okOracle s c.1 c.2).2

/-- The state after a sequence of completed `add_documents` calls starting
from a fresh store. -/
def runAll (embed : String → Vec K) (sha : String → String)
    (calls : List (String × List String)) : RagState K :=
  calls.foldl (step embed sha) RagState.empty

variable (K) in
/-- Models the content of the external FAISS flat-index file: the vector
dimension, the number of stored vectors (`ntotal`), and the stored
coordinates flattened in insertion order — the information
`faiss.write_index` persists for an `IndexFlatIP`. -/
structure IndexFile where
  dim : Nat
  ntotal : Nat
  data : List K
deriving DecidableEq, Repr

/-- Models `faiss.write_index` for a flat index holding the vectors `vs`
of dimension `d`: serialize the header and the flattened coordinates. -/
def write_index (d : Nat) (vs : List (Vec K)) : IndexFile K :=
  ⟨d, vs.length, vs.flatten⟩

/-- Split a flat coordinate list back into `n` rows of `d` coordinates. -/
def chunkRows : Nat → Nat → List K → List (Vec K)
  | 0, _, _ => []
  | n + 1, d, l => l.take d :: chunkRows n d (l.drop d)

/-- Models `faiss.read_index`: recover the stored vectors from the file,
rejecting a file whose data length does not match its header. -/
def read_index (f : IndexFile K) : Option (List (Vec K)) :=
  if f.data.length = f.ntotal * f.dim then some (chunkRows f.ntotal f.dim f.data) else none

/-- Positional alignment of the two persisted artifacts of a session. -/
def Aligned (s : RagState K) : Prop :=
  ∀ sid, lenIndex s sid = lenMeta s sid

section ConcreteInstances

/-- A concrete stand-in for the external embedder, used to evaluate the
model on explicit inputs: embeds a text as the one-dimensional vector of
its length. -/
def embedLen : String → Vec ℤ := fun t => [(t.length : ℤ)]

/-- A concrete stand-in for the external SHA-256 hexdigest, used to
evaluate the model on explicit inputs. -/
def shaStub : String → String :=
  fun t => t ++ "0123456789abcdef0123456789abcdef0123456789abcdef0123456789abcdef"

/-- A concrete session state: two vectors in the index, two aligned
metadata records. -/
def stTwo : RagState ℤ :=
  ⟨fun x => if x = "s" then some [[2], [1]] else none,
   fun x => if x = "s" then some [⟨"i0", "t0"⟩, ⟨"i1", "t1"⟩] else none⟩

/-- A concrete *misaligned* session state: two vectors in the index but
only one metadata record. -/
def stMisaligned : RagState ℤ :=
  ⟨fun x => if x = "s" then some [[2], [1]] else none,
   fun x => if x = "s" then some [⟨"i0", "t0"⟩] else none⟩

/-- A concrete session state in which both stored vectors score identically
against every query. -/
def stTie : RagState ℤ :=
  ⟨fun x => if x = "s" then some [[1], [1]] else none,
   fun x => if x = "s" then some [⟨"i0", "t0"⟩, ⟨"i1", "t1"⟩] else none⟩

end ConcreteInstances

/-- The similarity score of stored position `i` against query embedding `q`. -/
def scoreAt (vs : List (Vec K)) (q : Vec K) (i : Nat) : K :=
  dot q (vs.getD i [])

/-! ## Structural lemmas -/

/-- Unfolding a completed `add_documents` call: on nonempty input it appends
the embeddings to the session's index file and the new records to the
session's metadata file, leaving all other sessions untouched. -/
lemma step_eq (embed : String → Vec K) (sha : String → String) (s : RagState K)
    (c : String × List String) :
    step embed sha s c =
      if c.2.isEmpty then s
      else
        ⟨fun x => if x = c.1 then some (((s.indexFile c.1).getD []) ++ c.2.map embed)
                  else s.indexFile x,
         fun x => if x = c.1 then
                    some (((s.metaFile c.1).getD []) ++
                      c.2.map fun d => ⟨hashDoc sha d, d⟩)
                  else s.metaFile x⟩ := by
  by_cases h : c.2.isEmpty <;>
    simp [step, add_documents, readIndexOp, writeIndexOp, loadMetaOp, writeMetaOp,
      okOracle, h]

/-- A completed `add_documents` call preserves alignment of every session. -/
lemma aligned_step (embed : String → Vec K) (sha : String → String)
    {s : RagState K} (h : Aligned s) (c : String × List String) :
    Aligned (step embed sha s c) := by
  rw [step_eq]
  by_cases hc : c.2.isEmpty
  · simpa [hc] using h
  · intro sid
    have h1 := h sid
    have h2 := h c.1
    unfold lenIndex lenMeta at h1 h2 ⊢
    by_cases hs : sid = c.1 <;> simp [hc, hs, h1, h2]

/-- Alignment is preserved by any sequence of completed calls. -/
lemma aligned_foldl (embed : String → Vec K) (sha : String → String) :
    ∀ (calls : List (String × List String)) (s : RagState K),
      Aligned s → Aligned (calls.foldl (step embed sha) s)
  | [], _, h => h
  | c :: cs, s, h => aligned_foldl embed sha cs _ (aligned_step embed sha h c)

/-- Every record ever persisted carries the truncated digest of its own
text as identifier; preserved by any sequence of completed calls. -/
lemma meta_hash_foldl (embed : String → Vec K) (sha : String → String)
    (calls : List (String × List String)) :
    ∀ (s : RagState K),
      (∀ sid r, r ∈ ((s.metaFile sid).getD []) → r.id = hashDoc sha r.text) →
      ∀ sid r, r ∈ (((calls.foldl (step embed sha) s).metaFile sid).getD []) →
        r.id = hashDoc sha r.text := by
  induction calls with
  | nil => exact fun s h => h
  | cons c cs ih =>
    intro s h
    refine ih _ ?_
    intro sid r hr
    rw [step_eq] at hr
    by_cases hc : c.2.isEmpty
    · exact h sid r (by simpa [hc] using hr)
    · by_cases hs : sid = c.1
      · simp [hc, hs] at hr
        rcases hr with hold | ⟨d, hd, hdr⟩
        · exact h c.1 r hold
        · rw [← hdr]
      · exact h sid r (by simpa [hc, hs] using hr)

/-- The flattened coordinates of uniformly `d`-dimensional vectors have
length `count * d`. -/
lemma flatten_length_uniform (d : Nat) :
    ∀ vs : List (Vec K), (∀ v ∈ vs, v.length = d) →
      vs.flatten.length = vs.length * d := by
  intro vs
  induction vs with
  | nil => intro _; simp
  | cons v t ih =>
    intro h
    have hv := h v (List.mem_cons_self v t)
    have ht := ih fun u hu => h u (List.mem_cons_of_mem _ hu)
    rw [List.flatten_cons, List.length_append, hv, ht, List.length_cons,
      Nat.succ_mul, Nat.add_comm]

/-- Re-chunking the flattened coordinates recovers the original rows. -/
lemma chunkRows_flatten (d : Nat) :
    ∀ vs : List (Vec K), (∀ v ∈ vs, v.length = d) →
      chunkRows vs.length d vs.flatten = vs := by
  intro vs
  induction vs with
  | nil => intro _; rfl
  | cons v t ih =>
    intro h
    have hv := h v (List.mem_cons_self v t)
    rw [List.length_cons, List.flatten_cons]
    show (v ++ t.flatten).take d :: chunkRows t.length d ((v ++ t.flatten).drop d)
        = v :: t
    rw [List.take_left' hv, List.drop_left' hv,
      ih fun u hu => h u (List.mem_cons_of_mem _ hu)]

/-- The positions of the scored entries are exactly `0, …, n-1` in order. -/
lemma scored_map_fst (vs : List (Vec K)) (q : Vec K) :
    (scored vs q).map Prod.fst = List.range vs.length := by
  unfold scored
  rw [List.map_map]
  exact List.enum_map_fst vs

/-- Each scored entry pairs an in-range position with its similarity score. -/
lemma mem_scored (vs : List (Vec K)) (q : Vec K) :
    ∀ p ∈ scored vs q, p.1 < vs.length ∧ p.2 = scoreAt vs q p.1 := by
  intro p hp
  unfold scored at hp
  rcases List.mem_map.mp hp with ⟨⟨i, v⟩, hi, rfl⟩
  have hv := List.mem_enum_iff_getElem?.mp hi
  have hlt : i < vs.length := by
    rcases List.getElem?_eq_some.mp hv with ⟨h, _⟩
    exact h
  refine ⟨hlt, ?_⟩
  unfold scoreAt
  rw [List.getD_eq_getElem?_getD, hv]
  rfl

/-- Conversely, every in-range position occurs among the scored entries,
paired with its score. -/
lemma scored_mem_intro (vs : List (Vec K)) (q : Vec K) {j : Nat}
    (hj : j < vs.length) : (j, scoreAt vs q j) ∈ scored vs q := by
  unfold scored
  refine List.mem_map.mpr ⟨(j, vs.getD j []), ?_, ?_⟩
  · refine List.mem_enum_iff_getElem?.mpr ?_
    rw [List.getElem?_eq_getElem hj, List.getD_eq_getElem _ _ hj]
  · rfl

/-- Selected positions are in range of the index. -/
lemma mem_searchPositions_lt (vs : List (Vec K)) (q : Vec K) (k : Nat) :
    ∀ i ∈ searchPositions vs q k, i < vs.length := by
  intro i hi
  have hsub : List.Sublist (searchPositions vs q k)
      ((List.insertionSort keyLE (scored vs q)).map Prod.fst) :=
    List.Sublist.map _ (List.take_sublist _ _)
  have hperm : List.Perm ((List.insertionSort keyLE (scored vs q)).map Prod.fst)
      ((scored vs q).map Prod.fst) :=
    (List.perm_insertionSort _ _).map _
  have : i ∈ List.range vs.length := by
    rw [← scored_map_fst vs q]
    exact hperm.mem_iff.mp (hsub.subset hi)
  exact List.mem_range.mp this

/-- A selected position, paired with its score, is an element of the sorted
prefix the search keeps. -/
lemma mem_searchPositions_pair (vs : List (Vec K)) (q : Vec K) (k : Nat)
    {i : Nat} (hi : i ∈ searchPositions vs q k) :
    (i, scoreAt vs q i) ∈ (List.insertionSort keyLE (scored vs q)).take k := by
  unfold searchPositions at hi
  rcases List.mem_map.mp hi with ⟨p, hp, rfl⟩
  have hpm : p ∈ scored vs q :=
    (List.perm_insertionSort _ _).mem_iff.mp ((List.take_sublist _ _).subset hp)
  obtain ⟨_, h2⟩ := mem_scored vs q p hpm
  have : (p.1, scoreAt vs q p.1) = p := by
    rw [← h2]
  rwa [this]

/-- `filterMap` collapses to `map` when the function always succeeds. -/
lemma filterMap_eq_map_aux {α β : Type} (f : α → Option β) (g : α → β) :
    ∀ l : List α, (∀ a ∈ l, f a = some (g a)) → l.filterMap f = l.map g := by
  intro l
  induction l with
  | nil => intro _; rfl
  | cons a t ih =>
    intro h
    rw [List.filterMap_cons_some (h a (List.mem_cons_self a t)), List.map_cons,
      ih fun b hb => h b (List.mem_cons_of_mem _ hb)]

/-- `filterMap` of a constant the function rejects is empty. -/
lemma filterMap_replicate_none {α β : Type} (f : α → Option β) (a : α)
    (h : f a = none) : ∀ m, (List.replicate m a).filterMap f = [] := by
  intro m
  induction m with
  | zero => rfl
  | succ n ih => rw [List.replicate_succ, List.filterMap_cons_none h, ih]

/-- The `-1` padding labels all fail the range guard and are skipped. -/
lemma filterMap_pad (meta : List DocRecord) (m : Nat) :
    (List.replicate m (-1 : Int)).filterMap (fun idx =>
      if idx < 0 ∨ (meta.length : Int) ≤ idx then none
      else some (meta.getD idx.toNat ⟨"", ""⟩).text) = [] := by
  apply filterMap_replicate_none
  rw [if_pos]
  exact Or.inl (by decide)

/-- Reading positions back through the default-valued getter over the full
range reproduces the list itself (projected to texts). -/
lemma range_map_getD_text (meta : List DocRecord) :
    (List.range meta.length).map (fun i => (meta.getD i ⟨"", ""⟩).text) =
      meta.map (fun r => r.text) := by
  apply List.ext_getElem
  · simp
  · intro i h1 h2
    have hi : i < meta.length := by simpa using h2
    simp [List.getD_eq_getElem?_getD, List.getElem?_eq_getElem hi]

/-- The first component of `retrieve` is the joined `_search_index` result. -/
lemma retrieve_fst (embed : String → Vec K) (s : RagState K) (sid query : String) :
    (retrieve embed s sid query).1 =
      String.intercalate "\n---\n" (_search_index embed s sid query 4).1 := by
  unfold retrieve
  rcases h : _search_index embed s sid query 4 with ⟨a, b⟩
  rfl

/-- In an aligned session (metadata as long as the index), `_search_index`
returns exactly the texts of the selected positions, in selection order: the
`-1` padding labels are skipped and every selected label is in range. -/
lemma search_results_eq (embed : String → Vec K) (s : RagState K)
    (sid query : String) (k : Nat) (vs : List (Vec K)) (meta : List DocRecord)
    (hidx : s.indexFile sid = some vs) (hmeta : (s.metaFile sid).getD [] = meta)
    (hlen : meta.length = vs.length) :
    (_search_index embed s sid query k).1 =
      (searchPositions vs (embed query) k).map
        fun i => (meta.getD i ⟨"", ""⟩).text := by
  unfold _search_index readIndexOp loadMetaOp faissSearchLabels
  simp only [hidx, hmeta]
  rw [List.filterMap_append, filterMap_pad, List.append_nil, List.filterMap_map]
  apply filterMap_eq_map_aux
  intro i hi
  have hlt : i < vs.length := mem_searchPositions_lt vs (embed query) k i hi
  have hcond : ¬(((Int.ofNat i : Int) < 0) ∨
      ((meta.length : Int) ≤ (Int.ofNat i : Int))) := by
    simp only [Int.ofNat_eq_coe]
    rw [hlen]
    omega
  rw [Function.comp_apply, if_neg hcond]
  simp

/-- Two elements of a pairwise-ordered list, the second not related to the
first, occur in it in order. -/
lemma pairwise_pair_sublist {α : Type} {R : α → α → Prop} :
    ∀ {l : List α} {a b : α}, l.Pairwise R → a ∈ l → b ∈ l → ¬R b a → a ≠ b →
      [a, b].Sublist l := by
  intro l
  induction l with
  | nil => intro a b _ ha _ _ _; cases ha
  | cons x t ih =>
    intro a b hp ha hb hnR hne
    rcases List.mem_cons.mp ha with rfl | hat
    · have hbt : b ∈ t := by
        rcases List.mem_cons.mp hb with rfl | h
        · exact absurd rfl hne
        · exact h
      exact (List.singleton_sublist.mpr hbt).cons₂ a
    · rcases List.mem_cons.mp hb with rfl | hbt
      · exact absurd ((List.pairwise_cons.mp hp).1 a hat) hnR
      · exact (ih (List.pairwise_cons.mp hp).2 hat hbt hnR hne).cons x

/-! ## Claim theorems -/

/-- C1: for every sequence of completed `add_documents` calls starting from a
fresh store, after each call (any such sequence being a prefix of a longer
one) the number of vectors in every session's persisted index equals the
number of records in that session's persisted metadata. -/
theorem c1_alignment_invariant {K : Type} [LinearOrderedCommRing K]
    (embed : String → Vec K) (sha : String → String)
    (calls : List (String × List String)) (sid : String) :
    lenIndex (runAll embed sha calls) sid = lenMeta (runAll embed sha calls) sid :=
  aligned_foldl embed sha calls RagState.empty (fun _ => rfl) sid

/-- C2, counterexample to the claim as stated: when the index write succeeds
and the metadata write fails, `add_documents` does propagate an error, but it
leaves the two persisted artifacts misaligned (index written, metadata not),
so it does not report the failure while keeping the artifacts consistent. -/
theorem c2_counterexample :
    (add_documents embedLen shaStub ⟨true, false⟩ RagState.empty "s" ["a"]).1 =
      Except.error RagErr.persistMeta ∧
    ¬ (lenIndex (add_documents embedLen shaStub ⟨true, false⟩
          RagState.empty "s" ["a"]).2 "s" =
       lenMeta (add_documents embedLen shaStub ⟨true, false⟩
          RagState.empty "s" ["a"]).2 "s") :=
  ⟨rfl, by decide⟩

/-- C2 amended: for every `add_documents` call on nonempty input in which
exactly one of the two persisted writes succeeds, the operation propagates an
error (it never completes silently); moreover when the index write is the one
that fails, nothing has been written and the state is unchanged.  (When the
index write succeeds and the metadata write fails, the artifacts are left
misaligned; see the counterexample.) -/
theorem c2_partial_failure_amended {K : Type} [LinearOrderedCommRing K]
    (embed : String → Vec K) (sha : String → String) (o : Oracle)
    (s : RagState K) (sid : String) (docs : List String)
    (hd : docs ≠ []) (ho : o.indexWriteOk ≠ o.metaWriteOk) :
    (∃ e, (add_documents embed sha o s sid docs).1 = Except.error e) ∧
    (o.indexWriteOk = false → (add_documents embed sha o s sid docs).2 = s) := by
  have hne : docs.isEmpty = false := by
    cases docs with
    | nil => exact absurd rfl hd
    | cons a t => rfl
  rcases o with ⟨iw, mw⟩
  cases iw
  · refine ⟨⟨RagErr.persistIndex, ?_⟩, fun _ => ?_⟩ <;>
      simp [add_documents, readIndexOp, writeIndexOp, hne]
  · cases mw
    · refine ⟨⟨RagErr.persistMeta, ?_⟩, fun hfalse => absurd hfalse (by decide)⟩
      simp [add_documents, readIndexOp, writeIndexOp, loadMetaOp, writeMetaOp, hne]
    · exact absurd rfl ho

/-- Witness for the amended C2 at a concrete input: the index write fails,
the call reports an error and the state is unchanged. -/
theorem c2_partial_failure_amended_witness :
    (["a"] : List String) ≠ [] ∧
    (Oracle.mk false true).indexWriteOk ≠ (Oracle.mk false true).metaWriteOk ∧
    ((∃ e, (add_documents embedLen shaStub ⟨false, true⟩
        RagState.empty "s" ["a"]).1 = Except.error e) ∧
     ((Oracle.mk false true).indexWriteOk = false →
        (add_documents embedLen shaStub ⟨false, true⟩
          RagState.empty "s" ["a"]).2 = RagState.empty)) :=
  ⟨by decide, by decide,
    c2_partial_failure_amended embedLen shaStub ⟨false, true⟩ RagState.empty
      "s" ["a"] (by decide) (by decide)⟩

/-- C3: `retrieve` on a session whose index file does not exist returns the
empty string (and, the model being a total function, no error is raised). -/
theorem c3_empty_session_retrieve {K : Type} [LinearOrderedCommRing K]
    (embed : String → Vec K) (s : RagState K) (sid query : String)
    (h : s.indexFile sid = none) :
    (retrieve embed s sid query).1 = "" := by
  simp [retrieve, _search_index, readIndexOp, h]
  rfl

/-- Witness for C3: a fresh store has no index file and `retrieve` returns
the empty string. -/
theorem c3_empty_session_retrieve_witness :
    (RagState.empty (K := ℤ)).indexFile "s" = none ∧
    (retrieve embedLen RagState.empty "s" "q").1 = "" :=
  ⟨rfl, c3_empty_session_retrieve embedLen RagState.empty "s" "q" rfl⟩

/-- C8: every document record ever persisted (any run, any session, any
position) carries as identifier the truncated SHA-256 digest of its own text;
hence two records with identical text — across sessions, calls and positions —
carry identical identifiers. -/
theorem c8_identifier_digest {K₁ K₂ : Type}
    [LinearOrderedCommRing K₁] [LinearOrderedCommRing K₂]
    (embed₁ : String → Vec K₁) (embed₂ : String → Vec K₂) (sha : String → String)
    (calls₁ calls₂ : List (String × List String)) (sid₁ sid₂ : String)
    (r₁ r₂ : DocRecord)
    (h₁ : r₁ ∈ (((runAll embed₁ sha calls₁).metaFile sid₁).getD []))
    (h₂ : r₂ ∈ (((runAll embed₂ sha calls₂).metaFile sid₂).getD []))
    (ht : r₁.text = r₂.text) :
    r₁.id = hashDoc sha r₁.text ∧ r₁.id = r₂.id := by
  have e₁ := meta_hash_foldl embed₁ sha calls₁ RagState.empty
    (by intro sid r hr; cases hr) sid₁ r₁ h₁
  have e₂ := meta_hash_foldl embed₂ sha calls₂ RagState.empty
    (by intro sid r hr; cases hr) sid₂ r₂ h₂
  exact ⟨e₁, by rw [e₁, e₂, ht]⟩

set_option maxRecDepth 8000 in
/-- Witness for C8: the same text added in two different sessions by two
different runs receives the same stored identifier. -/
theorem c8_identifier_digest_witness :
    (⟨hashDoc shaStub "a", "a"⟩ : DocRecord) ∈
      (((runAll embedLen shaStub [("s1", ["a"])]).metaFile "s1").getD []) ∧
    (⟨hashDoc shaStub "a", "a"⟩ : DocRecord) ∈
      (((runAll embedLen shaStub [("s2", ["b", "a"])]).metaFile "s2").getD []) ∧
    ((⟨hashDoc shaStub "a", "a"⟩ : DocRecord).id =
        hashDoc shaStub (⟨hashDoc shaStub "a", "a"⟩ : DocRecord).text ∧
      (⟨hashDoc shaStub "a", "a"⟩ : DocRecord).id =
        (⟨hashDoc shaStub "a", "a"⟩ : DocRecord).id) :=
  ⟨by decide, by decide,
    c8_identifier_digest embedLen embedLen shaStub [("s1", ["a"])]
      [("s2", ["b", "a"])] "s1" "s2" _ _ (by decide) (by decide) rfl⟩

/-- C9: serializing an index (uniformly `d`-dimensional vectors) and reading
it back reproduces the same vector count and the identical vector values in
the same order. -/
theorem c9_index_round_trip {K : Type} [LinearOrderedCommRing K] (d : Nat)
    (vs : List (Vec K)) (h : ∀ v ∈ vs, v.length = d) :
    read_index (write_index d vs) = some vs ∧
    (write_index d vs).ntotal = vs.length := by
  refine ⟨?_, rfl⟩
  unfold read_index write_index
  rw [if_pos (flatten_length_uniform d vs h)]
  rw [chunkRows_flatten d vs h]

/-- Witness for C9 at a concrete two-vector index. -/
theorem c9_index_round_trip_witness :
    (∀ v ∈ ([[1, 2], [3, 4]] : List (Vec ℤ)), v.length = 2) ∧
    read_index (write_index 2 ([[1, 2], [3, 4]] : List (Vec ℤ))) =
      some [[1, 2], [3, 4]] :=
  ⟨by decide, (c9_index_round_trip 2 [[1, 2], [3, 4]] (by decide)).1⟩

/-- C10: `_search_index` and `retrieve` are read-only — the state they return
is the state they were given, so every session's persisted index file and
metadata file are unchanged by the call. -/
theorem c10_retrieve_readonly {K : Type} [LinearOrderedCommRing K]
    (embed : String → Vec K) (s : RagState K) (sid query : String) (k : Nat) :
    (_search_index embed s sid query k).2 = s ∧
    (retrieve embed s sid query).2 = s := by
  have h1 : ∀ k, (_search_index embed s sid query k).2 = s := by
    intro k
    cases h : s.indexFile sid <;>
      simp [_search_index, readIndexOp, loadMetaOp, h]
  refine ⟨h1 k, ?_⟩
  have hpair : _search_index embed s sid query 4 =
      ((_search_index embed s sid query 4).1, s) := by
    conv_lhs => rw [← Prod.mk.eta (p := _search_index embed s sid query 4)]
    rw [h1 4]
  simp only [retrieve]
  rw [hpair]

/-- C4: in an aligned session whose index holds fewer than `k` vectors, the
search returns exactly the stored texts — all `n` of them, no padding — as a
permutation (descending-similarity reordering) of the metadata texts. -/
theorem c4_k_larger_than_corpus {K : Type} [LinearOrderedCommRing K]
    (embed : String → Vec K) (s : RagState K) (sid query : String) (k : Nat)
    (vs : List (Vec K)) (meta : List DocRecord)
    (hidx : s.indexFile sid = some vs) (hmeta : (s.metaFile sid).getD [] = meta)
    (hlen : meta.length = vs.length) (hk : vs.length < k) :
    (_search_index embed s sid query k).1.length = vs.length ∧
    List.Perm (_search_index embed s sid query k).1
      (meta.map fun r => r.text) := by
  rw [search_results_eq embed s sid query k vs meta hidx hmeta hlen]
  have hslen :
      (List.insertionSort keyLE (scored vs (embed query))).length = vs.length := by
    rw [List.length_insertionSort]
    simp [scored]
  have htake : (List.insertionSort keyLE (scored vs (embed query))).take k =
      List.insertionSort keyLE (scored vs (embed query)) :=
    List.take_of_length_le (by rw [hslen]; omega)
  have hperm : List.Perm (searchPositions vs (embed query) k)
      (List.range vs.length) := by
    unfold searchPositions
    rw [htake, ← scored_map_fst vs (embed query)]
    exact (List.perm_insertionSort _ _).map _
  constructor
  · rw [List.length_map, hperm.length_eq, List.length_range]
  · have hmap := hperm.map (fun i => (meta.getD i ⟨"", ""⟩).text)
    rw [← hlen, range_map_getD_text meta] at hmap
    exact hmap

/-- Witness for C4: a session holding 2 documents queried with `k = 10`
returns exactly those 2 texts. -/
theorem c4_k_larger_than_corpus_witness :
    stTwo.indexFile "s" = some [[2], [1]] ∧
    (stTwo.metaFile "s").getD [] = [⟨"i0", "t0"⟩, ⟨"i1", "t1"⟩] ∧
    ([⟨"i0", "t0"⟩, ⟨"i1", "t1"⟩] : List DocRecord).length =
      ([[2], [1]] : List (Vec ℤ)).length ∧
    ([[2], [1]] : List (Vec ℤ)).length < 10 ∧
    ((_search_index embedLen stTwo "s" "q" 10).1.length =
        ([[2], [1]] : List (Vec ℤ)).length ∧
      List.Perm (_search_index embedLen stTwo "s" "q" 10).1
        (([⟨"i0", "t0"⟩, ⟨"i1", "t1"⟩] : List DocRecord).map fun r => r.text)) :=
  ⟨rfl, rfl, rfl, by decide,
    c4_k_larger_than_corpus embedLen stTwo "s" "q" 10 _ _ rfl rfl rfl (by decide)⟩

/-- C5: in an aligned session, `retrieve` returns the texts of the selected
positions joined by the fixed separator `"\n---\n"`; the selection has
`min 4 n` entries, is ordered by descending similarity, and is complete: every
unselected stored position scores no higher than any selected one.  (With no
documents the selection is empty and the result is the empty string.) -/
theorem c5_retrieve_top4 {K : Type} [LinearOrderedCommRing K]
    (embed : String → Vec K) (s : RagState K) (sid query : String)
    (vs : List (Vec K)) (meta : List DocRecord)
    (hidx : s.indexFile sid = some vs) (hmeta : (s.metaFile sid).getD [] = meta)
    (hlen : meta.length = vs.length) :
    (retrieve embed s sid query).1 = String.intercalate "\n---\n"
        ((searchPositions vs (embed query) 4).map
          fun i => (meta.getD i ⟨"", ""⟩).text) ∧
    (searchPositions vs (embed query) 4).length = min 4 vs.length ∧
    (searchPositions vs (embed query) 4).Pairwise
      (fun i j => scoreAt vs (embed query) j ≤ scoreAt vs (embed query) i) ∧
    (∀ j < vs.length, j ∉ searchPositions vs (embed query) 4 →
      ∀ i ∈ searchPositions vs (embed query) 4,
        scoreAt vs (embed query) j ≤ scoreAt vs (embed query) i) := by
  refine ⟨?_, ?_, ?_, ?_⟩
  · rw [retrieve_fst, search_results_eq embed s sid query 4 vs meta hidx hmeta hlen]
  · unfold searchPositions
    rw [List.length_map, List.length_take, List.length_insertionSort]
    simp [scored]
  · have htk : List.Pairwise keyLE
        ((List.insertionSort keyLE (scored vs (embed query))).take 4) :=
      List.Pairwise.sublist (List.take_sublist _ _)
        (List.sorted_insertionSort _ _)
    refine List.pairwise_map.mpr (List.Pairwise.imp_of_mem ?_ htk)
    intro a b ha hb hab
    have hma : a ∈ scored vs (embed query) :=
      (List.perm_insertionSort _ _).mem_iff.mp ((List.take_sublist _ _).subset ha)
    have hmb : b ∈ scored vs (embed query) :=
      (List.perm_insertionSort _ _).mem_iff.mp ((List.take_sublist _ _).subset hb)
    obtain ⟨-, ha2⟩ := mem_scored vs (embed query) a hma
    obtain ⟨-, hb2⟩ := mem_scored vs (embed query) b hmb
    rw [← ha2, ← hb2]
    rcases hab with h | ⟨h, -⟩
    · exact le_of_lt h
    · exact le_of_eq h.symm
  · intro j hj hnot i hi
    have hpi := mem_searchPositions_pair vs (embed query) 4 hi
    have hjm : (j, scoreAt vs (embed query) j) ∈
        List.insertionSort keyLE (scored vs (embed query)) :=
      (List.perm_insertionSort _ _).mem_iff.mpr
        (scored_mem_intro vs (embed query) hj)
    have hP : List.Pairwise keyLE
        ((List.insertionSort keyLE (scored vs (embed query))).take 4 ++
          (List.insertionSort keyLE (scored vs (embed query))).drop 4) := by
      rw [List.take_append_drop]
      exact List.sorted_insertionSort _ _
    obtain ⟨-, -, hcross⟩ := List.pairwise_append.mp hP
    have hjm' : (j, scoreAt vs (embed query) j) ∈
        ((List.insertionSort keyLE (scored vs (embed query))).take 4 ++
          (List.insertionSort keyLE (scored vs (embed query))).drop 4) := by
      rw [List.take_append_drop]
      exact hjm
    rcases List.mem_append.mp hjm' with hjt | hjd
    · exact absurd
        (show j ∈ searchPositions vs (embed query) 4 from
          List.mem_map.mpr ⟨_, hjt, rfl⟩) hnot
    · rcases hcross _ hpi _ hjd with h | ⟨h, -⟩
      · exact le_of_lt h
      · exact le_of_eq h.symm

/-- Witness for C5 at a concrete aligned two-document session. -/
theorem c5_retrieve_top4_witness :
    stTwo.indexFile "s" = some [[2], [1]] ∧
    (stTwo.metaFile "s").getD [] = [⟨"i0", "t0"⟩, ⟨"i1", "t1"⟩] ∧
    ([⟨"i0", "t0"⟩, ⟨"i1", "t1"⟩] : List DocRecord).length =
      ([[2], [1]] : List (Vec ℤ)).length ∧
    ((retrieve embedLen stTwo "s" "q").1 = String.intercalate "\n---\n"
        ((searchPositions [[2], [1]] (embedLen "q") 4).map
          fun i => (([⟨"i0", "t0"⟩, ⟨"i1", "t1"⟩] : List DocRecord).getD i
            ⟨"", ""⟩).text) ∧
      (searchPositions [[2], [1]] (embedLen "q") 4).length =
        min 4 ([[2], [1]] : List (Vec ℤ)).length ∧
      (searchPositions [[2], [1]] (embedLen "q") 4).Pairwise
        (fun i j => scoreAt [[2], [1]] (embedLen "q") j ≤
          scoreAt [[2], [1]] (embedLen "q") i) ∧
      (∀ j < ([[2], [1]] : List (Vec ℤ)).length,
        j ∉ searchPositions [[2], [1]] (embedLen "q") 4 →
        ∀ i ∈ searchPositions [[2], [1]] (embedLen "q") 4,
          scoreAt [[2], [1]] (embedLen "q") j ≤
            scoreAt [[2], [1]] (embedLen "q") i)) :=
  ⟨rfl, rfl, rfl, c5_retrieve_top4 embedLen stTwo "s" "q" _ _ rfl rfl rfl⟩

/-- C6: two selected positions with identical similarity scores appear in the
selection — and hence in the returned texts — in insertion order (the earlier
position first). -/
theorem c6_tie_broken_by_insertion {K : Type} [LinearOrderedCommRing K]
    (embed : String → Vec K) (s : RagState K) (sid query : String) (k : Nat)
    (vs : List (Vec K)) (meta : List DocRecord)
    (hidx : s.indexFile sid = some vs) (hmeta : (s.metaFile sid).getD [] = meta)
    (hlen : meta.length = vs.length) (i j : Nat)
    (hi : i ∈ searchPositions vs (embed query) k)
    (hj : j ∈ searchPositions vs (embed query) k)
    (hij : i < j)
    (heq : scoreAt vs (embed query) i = scoreAt vs (embed query) j) :
    List.Sublist [i, j] (searchPositions vs (embed query) k) ∧
    List.Sublist [(meta.getD i ⟨"", ""⟩).text, (meta.getD j ⟨"", ""⟩).text]
      (_search_index embed s sid query k).1 := by
  have hpi := mem_searchPositions_pair vs (embed query) k hi
  have hpj := mem_searchPositions_pair vs (embed query) k hj
  have htk : List.Pairwise keyLE
      ((List.insertionSort keyLE (scored vs (embed query))).take k) :=
    List.Pairwise.sublist (List.take_sublist _ _) (List.sorted_insertionSort _ _)
  have hnR : ¬keyLE (j, scoreAt vs (embed query) j)
      (i, scoreAt vs (embed query) i) := by
    intro hR
    rcases hR with h | ⟨-, h'⟩
    · rw [heq] at h
      exact lt_irrefl _ h
    · omega
  have hne : (i, scoreAt vs (embed query) i) ≠
      (j, scoreAt vs (embed query) j) := by
    intro hcontra
    have : i = j := congrArg Prod.fst hcontra
    omega
  have hsubf := List.Sublist.map Prod.fst
    (pairwise_pair_sublist htk hpi hpj hnR hne)
  refine ⟨hsubf, ?_⟩
  rw [search_results_eq embed s sid query k vs meta hidx hmeta hlen]
  exact List.Sublist.map (fun i => (meta.getD i ⟨"", ""⟩).text) hsubf

/-- Witness for C6: two documents with identical score against the query come
back in insertion order. -/
theorem c6_tie_broken_by_insertion_witness :
    stTie.indexFile "s" = some [[1], [1]] ∧
    (stTie.metaFile "s").getD [] = [⟨"i0", "t0"⟩, ⟨"i1", "t1"⟩] ∧
    (0 : Nat) ∈ searchPositions [[1], [1]] (embedLen "q") 4 ∧
    (1 : Nat) ∈ searchPositions [[1], [1]] (embedLen "q") 4 ∧
    scoreAt [[1], [1]] (embedLen "q") 0 = scoreAt [[1], [1]] (embedLen "q") 1 ∧
    (List.Sublist [0, 1] (searchPositions [[1], [1]] (embedLen "q") 4) ∧
      List.Sublist
        [(([⟨"i0", "t0"⟩, ⟨"i1", "t1"⟩] : List DocRecord).getD 0 ⟨"", ""⟩).text,
         (([⟨"i0", "t0"⟩, ⟨"i1", "t1"⟩] : List DocRecord).getD 1 ⟨"", ""⟩).text]
        (_search_index embedLen stTie "s" "q" 4).1) :=
  ⟨rfl, rfl, by decide, by decide, by decide,
    c6_tie_broken_by_insertion embedLen stTie "s" "q" 4 _ _ rfl rfl rfl 0 1
      (by decide) (by decide) (by decide) (by decide)⟩

/-- C7, counterexample to the claim as stated: on a session whose persisted
index (2 vectors) and metadata (1 record) disagree in length, the subsystem
does not report any consistency error — `retrieve` silently returns a
retrieval result assembled from the in-range positions. -/
theorem c7_counterexample :
    lenIndex stMisaligned "s" ≠ lenMeta stMisaligned "s" ∧
    (retrieve embedLen stMisaligned "s" "q").1 = "t0" :=
  ⟨by decide, by decide⟩

/-- C7 amended: on load misalignment nothing is reported; `_search_index`
silently skips every returned position with no matching metadata record, so
each returned text is the text of some stored record. -/
theorem c7_skip_out_of_range {K : Type} [LinearOrderedCommRing K]
    (embed : String → Vec K) (s : RagState K) (sid query : String) (k : Nat)
    (t : String) (ht : t ∈ (_search_index embed s sid query k).1) :
    ∃ r ∈ (s.metaFile sid).getD [], r.text = t := by
  unfold _search_index readIndexOp loadMetaOp at ht
  rcases hidx : s.indexFile sid with - | vs
  · simp only [hidx] at ht
    exact absurd ht (List.not_mem_nil t)
  · simp only [hidx] at ht
    rcases List.mem_filterMap.mp ht with ⟨idx, hmem, hf⟩
    by_cases hcond : idx < 0 ∨ (((s.metaFile sid).getD []).length : Int) ≤ idx
    · rw [if_pos hcond] at hf
      cases hf
    · rw [if_neg hcond] at hf
      injection hf with hf
      push_neg at hcond
      obtain ⟨h0, hlt⟩ := hcond
      have hlt' : idx.toNat < ((s.metaFile sid).getD []).length := by omega
      refine ⟨((s.metaFile sid).getD []).getD idx.toNat ⟨"", ""⟩, ?_, hf⟩
      rw [List.getD_eq_getElem _ _ hlt']
      exact List.getElem_mem _

/-- Witness for the amended C7: on the misaligned state the single returned
text comes from the single stored record. -/
theorem c7_skip_out_of_range_witness :
    "t0" ∈ (_search_index embedLen stMisaligned "s" "q" 4).1 ∧
    ∃ r ∈ (stMisaligned.metaFile "s").getD [], r.text = "t0" :=
  ⟨by decide,
    c7_skip_out_of_range embedLen stMisaligned "s" "q" 4 "t0" (by decide)⟩

end Rag
